import Mathlib

/-!
Shallow embedding of the PostgreSQL-backed memory store of this
repository (`pg_memory_system.py`, class `PGMemorySystem`).

The database table `vector_store` is modelled as a list of rows together
with the next value of the `SERIAL` id sequence.  The sentence-transformer
embedder and the pgvector cosine-distance operator are external services,
so they enter the model as function parameters (`embed`, `dist`); every
operation of the store is translated from the Python source, including
its truthiness tests on optional arguments (`tags or []`,
`category or 'Uncategorized'`, `if content:`, `if tags:`, `if category:`,
`if embedding:`).
-/

/-- The JSONB `metadata` blob stored with each row, as built by
`add_memory`: keys `tags`, `category`, `timestamp`. -/
structure Metadata where
  tags : List String
  category : String
  timestamp : String
  deriving DecidableEq, Repr

/-- One row of the `vector_store` table: columns `id`, `timestamp`
(the creation time), `text`, `embedding`, `model`, `metadata`.
The `timestamp` column is kept as the formatted string it was parsed
from (`datetime.strptime` is injective on well-formed inputs). -/
structure Row where
  id : Nat
  timestamp : String
  text : String
  embedding : List ℚ
  model : String
  metadata : Metadata
  deriving DecidableEq, Repr

/-- The persistent state: the table rows in insertion order plus the
next value of the `SERIAL` primary-key sequence. -/
structure Store where
  rows : List Row
  next : Nat
  deriving DecidableEq, Repr

/-- Python truthiness on an optional string argument: `x or d` falls
through to the default both when the argument is absent (`None`) and
when it is the empty string. -/
def truthyStr : Option String → Option String
  | none => none
  | some s => if s = "" then none else some s

/-- Python truthiness on an optional list argument: `None` and `[]`
are both falsy. -/
def truthyList : Option (List String) → Option (List String)
  | none => none
  | some l => if l = [] then none else some l

/-- Well-formedness of the table: every id was issued by the sequence
(so it is smaller than the next value) and ids are pairwise distinct,
as guaranteed by the `SERIAL PRIMARY KEY` column. -/
def WF (s : Store) : Prop :=
  (∀ r ∈ s.rows, r.id < s.next) ∧ (s.rows.map (fun r => r.id)).Nodup

instance (s : Store) : Decidable (WF s) := by
  unfold WF; infer_instance

/-- `add_memory(content, tags, category, timestamp)`: builds the metadata
blob with Python-truthiness defaults, embeds the content, inserts one row
and returns the assigned id.  `now` stands for
`datetime.now().strftime('%Y%m%d%H%M')`. -/
def addMemory (embed : String → List ℚ) (modelName now : String) (s : Store)
    (content : String) (tags : Option (List String)) (category : Option String)
    (timestamp : Option String) : Nat × Store :=
  let md : Metadata :=
    { tags := (truthyList tags).getD []
      category := (truthyStr category).getD "Uncategorized"
      timestamp := (truthyStr timestamp).getD now }
  let row : Row :=
    { id := s.next
      timestamp := md.timestamp
      text := content
      embedding := embed content
      model := modelName
      metadata := md }
  (s.next, { rows := s.rows ++ [row], next := s.next + 1 })

/-- The dictionary returned by `get_memory` and consumed by
`update_memory`: keys `id`, `content`, `metadata`. -/
structure MemoryView where
  id : Nat
  content : String
  metadata : Metadata
  deriving DecidableEq, Repr

/-- `get_memory(memory_id)`: `SELECT id, text, metadata FROM vector_store
WHERE id = %s` with `fetchone`, returning the first matching row as a
dictionary, or `None` when no row matches. -/
def getMemory (s : Store) (mid : Nat) : Option MemoryView :=
  (s.rows.find? (fun r => r.id == mid)).map
    (fun r => { id := r.id, content := r.text, metadata := r.metadata })

/-- The metadata blob written back by `update_memory`: `if tags:` and
`if category:` overwrite the respective keys of the fetched blob, all
other keys (`timestamp`) are carried over. -/
def newMetadata (md : Metadata) (tags : Option (List String))
    (category : Option String) : Metadata :=
  let md1 : Metadata :=
    match truthyList tags with
    | some t => { md with tags := t }
    | none => md
  match truthyStr category with
  | some c => { md1 with category := c }
  | none => md1

/-- The effect of `update_memory`'s single `UPDATE ... WHERE id = %s`
statement on one matching row, given the fetched record `mem`: when
`content` is truthy the recomputed embedding is produced, and
`if embedding:` picks the three-column write (`text`, `embedding`,
`metadata`) only when that list is itself truthy (non-empty); otherwise
only `metadata` is written. -/
def updRow (embed : String → List ℚ) (mem : MemoryView) (content : Option String)
    (tags : Option (List String)) (category : Option String) (r : Row) : Row :=
  let md2 := newMetadata mem.metadata tags category
  match (truthyStr content).map embed with
  | some e =>
    if e = [] then { r with metadata := md2 }
    else { r with text := (truthyStr content).getD mem.content, embedding := e,
                  metadata := md2 }
  | none => { r with metadata := md2 }

/-- `update_memory(memory_id, content, tags, category)`: fetches the
record (returning `False` when absent), applies the truthy arguments to
the in-memory copy, recomputes the embedding only when `content` is
truthy, and issues one `UPDATE ... WHERE id = %s` over the table,
returning `True`. -/
def updateMemory (embed : String → List ℚ) (s : Store) (mid : Nat)
    (content : Option String) (tags : Option (List String))
    (category : Option String) : Bool × Store :=
  match getMemory s mid with
  | none => (false, s)
  | some mem =>
    (true, { s with rows := s.rows.map (fun r =>
      if r.id = mid then updRow embed mem content tags category r else r) })

/-- `delete_memory(memory_id)`: `DELETE FROM vector_store WHERE id = %s`,
returning `cur.rowcount > 0`, i.e. whether any row matched. -/
def deleteMemory (s : Store) (mid : Nat) : Bool × Store :=
  (s.rows.any (fun r => r.id == mid),
   { s with rows := s.rows.filter (fun r => r.id != mid) })

/-- One element of the list returned by `search_memories`: columns
`id`, `text`, `metadata` and the computed `similarity`. -/
structure SearchResult where
  id : Nat
  content : String
  metadata : Metadata
  similarity : ℚ
  deriving DecidableEq, Repr

/-- `search_memories(query, k)`: `SELECT id, text, metadata,
1 - (embedding <=> qv) AS similarity FROM vector_store ORDER BY
embedding <=> qv LIMIT k`, where `qv` is the embedding of the query and
`dist` models the pgvector cosine-distance operator.  `ORDER BY` is a
stable sort on ascending distance; `LIMIT` takes the first `k` rows. -/
def searchMemories (dist : List ℚ → List ℚ → ℚ) (embed : String → List ℚ)
    (s : Store) (query : String) (k : Nat) : List SearchResult :=
  ((List.insertionSort
      (fun a b => dist (embed query) a.embedding ≤ dist (embed query) b.embedding)
      s.rows).take k).map
    (fun r =>
      { id := r.id
        content := r.text
        metadata := r.metadata
        similarity := 1 - dist (embed query) r.embedding })

/-! ### Helper lemmas -/

/-- `find?` skips a prefix on which the predicate is everywhere false. -/
theorem find?_append_of_forall_false {α : Type} {p : α → Bool} {l1 l2 : List α}
    (h : ∀ x ∈ l1, p x = false) : (l1 ++ l2).find? p = l2.find? p := by
  induction l1 with
  | nil => rfl
  | cons a t ih =>
    rw [List.cons_append, List.find?_cons_of_neg _ (by simp [h a (List.mem_cons_self a t)])]
    exact ih (fun x hx => h x (List.mem_cons_of_mem a hx))

/-- Under distinct ids, `find?` on the id predicate returns exactly the
member row carrying that id. -/
theorem find?_id_of_nodup {rows : List Row} {row : Row} {mid : Nat}
    (hnd : (rows.map (fun r => r.id)).Nodup) (hmem : row ∈ rows) (hid : row.id = mid) :
    rows.find? (fun r => r.id == mid) = some row := by
  induction rows with
  | nil => cases hmem
  | cons h t ih =>
    rw [List.map_cons, List.nodup_cons] at hnd
    rcases List.mem_cons.mp hmem with rfl | hmem'
    · exact List.find?_cons_of_pos _ (by simp [hid])
    · have hne : h.id ≠ mid := by
        intro he
        exact hnd.1 (he ▸ hid ▸ List.mem_map_of_mem (fun r => r.id) hmem')
      rw [List.find?_cons_of_neg _ (by simp [hne])]
      exact ih hnd.2 hmem'

/-- A map that fixes every member of a list fixes the list. -/
theorem map_id_of_forall_eq {α : Type} {f : α → α} {l : List α}
    (h : ∀ a ∈ l, f a = a) : l.map f = l := by
  induction l with
  | nil => rfl
  | cons a t ih =>
    rw [List.map_cons, h a (List.mem_cons_self a t),
      ih (fun x hx => h x (List.mem_cons_of_mem a hx))]


theorem truthyList_getD_nil (o : Option (List String)) :
    (truthyList o).getD [] = o.getD [] := by
  cases o with
  | none => rfl
  | some l =>
    unfold truthyList
    by_cases h : l = [] <;> simp [h]

theorem truthyList_ne_nil {o : Option (List String)} {t : List String}
    (h : truthyList o = some t) : t ≠ [] := by
  cases o with
  | none => cases h
  | some l =>
    unfold truthyList at h
    by_cases hl : l = [] <;> simp [hl] at h
    exact h ▸ hl

theorem truthyStr_ne_empty {o : Option String} {c : String}
    (h : truthyStr o = some c) : c ≠ "" := by
  cases o with
  | none => cases h
  | some st =>
    unfold truthyStr at h
    by_cases hs : st = "" <;> simp [hs] at h
    exact h ▸ hs

theorem truthyStr_of_ne {c : String} (h : c ≠ "") : truthyStr (some c) = some c := by
  unfold truthyStr; simp [h]

theorem newMetadata_tags (md : Metadata) (tags : Option (List String))
    (category : Option String) :
    (newMetadata md tags category).tags = (truthyList tags).getD md.tags := by
  unfold newMetadata
  cases truthyList tags <;> cases truthyStr category <;> rfl

theorem newMetadata_category (md : Metadata) (tags : Option (List String))
    (category : Option String) :
    (newMetadata md tags category).category = (truthyStr category).getD md.category := by
  unfold newMetadata
  cases truthyList tags <;> cases truthyStr category <;> rfl

theorem newMetadata_timestamp (md : Metadata) (tags : Option (List String))
    (category : Option String) :
    (newMetadata md tags category).timestamp = md.timestamp := by
  unfold newMetadata
  cases truthyList tags <;> cases truthyStr category <;> rfl

theorem updRow_id (embed : String → List ℚ) (mem : MemoryView)
    (content : Option String) (tags : Option (List String))
    (category : Option String) (r : Row) :
    (updRow embed mem content tags category r).id = r.id := by
  unfold updRow
  cases (truthyStr content).map embed with
  | none => rfl
  | some e => by_cases h : e = [] <;> simp [h]

theorem updRow_timestamp (embed : String → List ℚ) (mem : MemoryView)
    (content : Option String) (tags : Option (List String))
    (category : Option String) (r : Row) :
    (updRow embed mem content tags category r).timestamp = r.timestamp := by
  unfold updRow
  cases (truthyStr content).map embed with
  | none => rfl
  | some e => by_cases h : e = [] <;> simp [h]

theorem updRow_metadata (embed : String → List ℚ) (mem : MemoryView)
    (content : Option String) (tags : Option (List String))
    (category : Option String) (r : Row) :
    (updRow embed mem content tags category r).metadata =
      newMetadata mem.metadata tags category := by
  unfold updRow
  cases (truthyStr content).map embed with
  | none => rfl
  | some e => by_cases h : e = [] <;> simp [h]

theorem getMemory_eq_some {s : Store} {row : Row} {mid : Nat}
    (hnd : (s.rows.map (fun r => r.id)).Nodup) (hmem : row ∈ s.rows)
    (hid : row.id = mid) :
    getMemory s mid = some { id := row.id, content := row.text, metadata := row.metadata } := by
  unfold getMemory
  rw [find?_id_of_nodup hnd hmem hid]
  rfl

theorem updateMemory_present {embed : String → List ℚ} {s : Store} {mid : Nat}
    {row : Row} (content : Option String) (tags : Option (List String))
    (category : Option String)
    (hnd : (s.rows.map (fun r => r.id)).Nodup) (hmem : row ∈ s.rows)
    (hid : row.id = mid) :
    updateMemory embed s mid content tags category =
      (true, { s with rows := s.rows.map (fun r =>
        if r.id = mid then
          updRow embed { id := row.id, content := row.text, metadata := row.metadata }
            content tags category r
        else r) }) := by
  unfold updateMemory
  rw [getMemory_eq_some hnd hmem hid]

theorem truthyStr_empty : truthyStr (some "") = none := by
  unfold truthyStr; simp

theorem truthyList_nil : truthyList (some ([] : List String)) = none := by
  unfold truthyList; simp

theorem truthyList_of_ne {t : List String} (h : ¬ t = []) :
    truthyList (some t) = some t := by
  unfold truthyList; simp [h]

/-- A no-op `update_memory` call on a present id: when all three optional
arguments are Python-falsy the single `UPDATE` writes the metadata blob
back unchanged, so the store is unchanged and the call reports success. -/
theorem update_noop_core (embed : String → List ℚ) (s : Store) (mid : Nat)
    (row : Row) (hWF : WF s) (hmem : row ∈ s.rows) (hid : row.id = mid)
    (content : Option String) (tags : Option (List String)) (category : Option String)
    (hc : truthyStr content = none) (ht : truthyList tags = none)
    (hg : truthyStr category = none) :
    updateMemory embed s mid content tags category = (true, s) := by
  rw [updateMemory_present content tags category hWF.2 hmem hid]
  have hfix : ∀ a ∈ s.rows,
      (if a.id = mid then
        updRow embed { id := row.id, content := row.text, metadata := row.metadata }
          content tags category a
      else a) = a := by
    intro a ha
    by_cases hca : a.id = mid
    · have haeq : a = row :=
        List.inj_on_of_nodup_map hWF.2 ha hmem (by rw [hca, hid])
      subst haeq
      rw [if_pos hca]
      unfold updRow newMetadata
      rw [hc, ht, hg]
      rfl
    · rw [if_neg hca]
  rw [map_id_of_forall_eq hfix]

/-! ### Concrete fixtures used to instantiate the theorems -/

/-- A concrete stand-in for the sentence-transformer model: one-dimensional
embeddings, distinct for texts of distinct lengths and never empty. -/
def embed0 : String → List ℚ := fun st => [(st.length : ℚ)]

/-- A concrete stand-in for the pgvector cosine-distance operator. -/
def dist0 : List ℚ → List ℚ → ℚ :=
  fun a b => (a.headD 0 - b.headD 0) * (a.headD 0 - b.headD 0)

def row1 : Row :=
  { id := 1
    timestamp := "202401010000"
    text := "alpha"
    embedding := [5]
    model := "all-MiniLM-L6-v2"
    metadata := { tags := ["a"], category := "Sports", timestamp := "202401010000" } }

def row2 : Row :=
  { id := 2
    timestamp := "202401020000"
    text := "beta12"
    embedding := [6]
    model := "all-MiniLM-L6-v2"
    metadata := { tags := [], category := "Uncategorized", timestamp := "202401020000" } }

def store1 : Store := { rows := [row1, row2], next := 3 }


/-! ### Claims -/

/-- C10: for a present id, `update_memory` with `content`, `tags` and
`category` all omitted returns `True` and leaves the store entirely
unchanged — a no-field update is an identity operation that still
reports success. -/
theorem C10_noop_update_is_identity (embed : String → List ℚ) (s : Store)
    (mid : Nat) (row : Row) (hWF : WF s) (hmem : row ∈ s.rows)
    (hid : row.id = mid) :
    updateMemory embed s mid none none none = (true, s) :=
  update_noop_core embed s mid row hWF hmem hid none none none rfl rfl rfl

theorem C10_witness :
    updateMemory embed0 store1 1 none none none = (true, store1) :=
  C10_noop_update_is_identity embed0 store1 1 row1 (by decide)
    (List.mem_cons_self row1 [row2]) rfl

/-- C9: passing Python-falsy values (`content=""`, `tags=[]`,
`category=""`) to `update_memory` treats those fields as not provided:
the store is left unchanged while success is reported, the call is
indistinguishable from one that omits the fields, and no update call can
clear `tags` or `category` to an empty value unless it was empty
already. -/
theorem C9_falsy_update_means_omitted (embed : String → List ℚ) (s : Store)
    (mid : Nat) (row : Row) (hWF : WF s) (hmem : row ∈ s.rows)
    (hid : row.id = mid) :
    updateMemory embed s mid (some "") (some []) (some "") = (true, s) ∧
    updateMemory embed s mid (some "") (some []) (some "") =
      updateMemory embed s mid none none none ∧
    (∀ content tags category,
      ∀ r' ∈ (updateMemory embed s mid content tags category).2.rows,
        r'.id = mid →
        (r'.metadata.tags = [] → row.metadata.tags = []) ∧
        (r'.metadata.category = "" → row.metadata.category = "")) := by
  refine ⟨?_, ?_, ?_⟩
  · exact update_noop_core embed s mid row hWF hmem hid _ _ _
      truthyStr_empty truthyList_nil truthyStr_empty
  · rw [update_noop_core embed s mid row hWF hmem hid _ _ _
      truthyStr_empty truthyList_nil truthyStr_empty,
      update_noop_core embed s mid row hWF hmem hid none none none rfl rfl rfl]
  · intro content tags category r' hr' hid'
    rw [updateMemory_present content tags category hWF.2 hmem hid] at hr'
    rcases List.mem_map.mp hr' with ⟨a, ha, heq⟩
    by_cases hca : a.id = mid
    · have haeq : a = row :=
        List.inj_on_of_nodup_map hWF.2 ha hmem (by rw [hca, hid])
      subst haeq
      rw [if_pos hca] at heq
      have hmd : r'.metadata = newMetadata a.metadata tags category := by
        rw [← heq, updRow_metadata]
      constructor
      · intro htag
        rw [hmd, newMetadata_tags] at htag
        cases htl : truthyList tags with
        | none => rw [htl] at htag; exact htag
        | some t =>
          rw [htl] at htag
          exact absurd htag (truthyList_ne_nil htl)
      · intro hcat
        rw [hmd, newMetadata_category] at hcat
        cases hts : truthyStr category with
        | none => rw [hts] at hcat; exact hcat
        | some c =>
          rw [hts] at hcat
          exact absurd hcat (truthyStr_ne_empty hts)
    · rw [if_neg hca] at heq
      exact absurd (heq ▸ hca) (fun hne => hne hid')

theorem C9_witness :
    (updateMemory embed0 store1 1 (some "") (some []) (some "") = (true, store1) ∧
     updateMemory embed0 store1 1 (some "") (some []) (some "") =
       updateMemory embed0 store1 1 none none none ∧
     (∀ content tags category,
       ∀ r' ∈ (updateMemory embed0 store1 1 content tags category).2.rows,
         r'.id = 1 →
         (r'.metadata.tags = [] → row1.metadata.tags = []) ∧
         (r'.metadata.category = "" → row1.metadata.category = ""))) :=
  C9_falsy_update_means_omitted embed0 store1 1 row1 (by decide)
    (List.mem_cons_self row1 [row2]) rfl

/-- C2: for a present record, `update_memory` with a non-empty `tags`
list rewrites only that record's tags (content, embedding, category,
creation time and all other rows kept), and with a non-empty `content`
string rewrites its content and embedding together (tags, category,
creation time and all other rows kept). -/
theorem C2_update_isolation (embed : String → List ℚ) (s : Store) (mid : Nat)
    (row : Row) (hWF : WF s) (hmem : row ∈ s.rows) (hid : row.id = mid)
    (t : List String) (ht : t ≠ []) (c : String) (hc : c ≠ "")
    (hec : embed c ≠ []) :
    ((updateMemory embed s mid none (some t) none).1 = true ∧
     { row with metadata := { row.metadata with tags := t } } ∈
       (updateMemory embed s mid none (some t) none).2.rows ∧
     (∀ r' ∈ s.rows, r'.id ≠ mid →
       r' ∈ (updateMemory embed s mid none (some t) none).2.rows)) ∧
    ((updateMemory embed s mid (some c) none none).1 = true ∧
     { row with text := c, embedding := embed c } ∈
       (updateMemory embed s mid (some c) none none).2.rows ∧
     (∀ r' ∈ s.rows, r'.id ≠ mid →
       r' ∈ (updateMemory embed s mid (some c) none none).2.rows)) := by
  rw [updateMemory_present none (some t) none hWF.2 hmem hid,
    updateMemory_present (some c) none none hWF.2 hmem hid]
  refine ⟨⟨rfl, ?_, ?_⟩, rfl, ?_, ?_⟩
  · have hrow : (if row.id = mid then
        updRow embed { id := row.id, content := row.text, metadata := row.metadata }
          none (some t) none row
      else row) = { row with metadata := { row.metadata with tags := t } } := by
      rw [if_pos hid]
      unfold updRow newMetadata
      rw [truthyList_of_ne ht]
      rfl
    exact hrow ▸ List.mem_map_of_mem _ hmem
  · intro r' hr' hne
    have hfr : (if r'.id = mid then
        updRow embed { id := row.id, content := row.text, metadata := row.metadata }
          none (some t) none r'
      else r') = r' := if_neg hne
    exact hfr ▸ List.mem_map_of_mem _ hr'
  · have hrow : (if row.id = mid then
        updRow embed { id := row.id, content := row.text, metadata := row.metadata }
          (some c) none none row
      else row) = { row with text := c, embedding := embed c } := by
      rw [if_pos hid]
      unfold updRow newMetadata
      rw [truthyStr_of_ne hc]
      simp only [Option.map_some', Option.getD_some]
      rw [if_neg hec]
      rfl
    exact hrow ▸ List.mem_map_of_mem _ hmem
  · intro r' hr' hne
    have hfr : (if r'.id = mid then
        updRow embed { id := row.id, content := row.text, metadata := row.metadata }
          (some c) none none r'
      else r') = r' := if_neg hne
    exact hfr ▸ List.mem_map_of_mem _ hr'

theorem C2_witness :
    ((updateMemory embed0 store1 1 none (some ["x"]) none).1 = true ∧
     { row1 with metadata := { row1.metadata with tags := ["x"] } } ∈
       (updateMemory embed0 store1 1 none (some ["x"]) none).2.rows ∧
     (∀ r' ∈ store1.rows, r'.id ≠ 1 →
       r' ∈ (updateMemory embed0 store1 1 none (some ["x"]) none).2.rows)) ∧
    ((updateMemory embed0 store1 1 (some "new") none none).1 = true ∧
     { row1 with text := "new", embedding := embed0 "new" } ∈
       (updateMemory embed0 store1 1 (some "new") none none).2.rows ∧
     (∀ r' ∈ store1.rows, r'.id ≠ 1 →
       r' ∈ (updateMemory embed0 store1 1 (some "new") none none).2.rows)) :=
  C2_update_isolation embed0 store1 1 row1 (by decide)
    (List.mem_cons_self row1 [row2]) rfl ["x"] (by decide) "new" (by decide)
    (List.cons_ne_nil _ _)

/-- C5: `get_memory` is a total lookup: it returns `None` exactly when no
row carries the id (a normal outcome, not an error), and any returned
dictionary is the full decoded record of a stored row with that id. -/
theorem C5_get_total_lookup (s : Store) (mid : Nat) :
    (getMemory s mid = none ↔ ∀ r ∈ s.rows, r.id ≠ mid) ∧
    (∀ m, getMemory s mid = some m →
      ∃ r ∈ s.rows, r.id = mid ∧
        m = { id := r.id, content := r.text, metadata := r.metadata }) := by
  constructor
  · unfold getMemory
    rw [Option.map_eq_none', List.find?_eq_none]
    constructor
    · intro h r hr
      have := h r hr
      simpa using this
    · intro h r hr
      simpa using h r hr
  · intro m hm
    unfold getMemory at hm
    rcases Option.map_eq_some'.mp hm with ⟨r, hfind, hdec⟩
    refine ⟨r, List.mem_of_find?_eq_some hfind, ?_, hdec.symm⟩
    have := List.find?_some hfind
    simpa using this

theorem C5_witness :
    ((getMemory store1 7 = none ↔ ∀ r ∈ store1.rows, r.id ≠ 7) ∧
     (∀ m, getMemory store1 7 = some m →
       ∃ r ∈ store1.rows, r.id = 7 ∧
         m = { id := r.id, content := r.text, metadata := r.metadata })) ∧
    getMemory store1 7 = none :=
  ⟨C5_get_total_lookup store1 7, (C5_get_total_lookup store1 7).1.mpr (by decide)⟩

/-- `delete_memory` on an id carried by no row: no row matches, so
`rowcount` is `0` (the call reports `False`) and the filter removes
nothing. -/
theorem delete_absent_core {s : Store} {mid : Nat}
    (h : ∀ r ∈ s.rows, r.id ≠ mid) : deleteMemory s mid = (false, s) := by
  unfold deleteMemory
  have hany : s.rows.any (fun r => r.id == mid) = false := by
    rw [List.any_eq_false]
    intro r hr
    simpa using h r hr
  have hfil : s.rows.filter (fun r => r.id != mid) = s.rows := by
    rw [List.filter_eq_self]
    intro r hr
    simpa using h r hr
  rw [hany, hfil]

/-- C7: deleting a nonexistent id returns the not-found flag and leaves
the table unchanged; deleting an existing id reports success, and a
second delete of the same id reports not-found on the already-filtered
table — "deleted" and "nothing to delete" are distinguishable. -/
theorem C7_delete_idempotent_absence (s : Store) (mid : Nat) :
    ((∀ r ∈ s.rows, r.id ≠ mid) → deleteMemory s mid = (false, s)) ∧
    (∀ r ∈ s.rows, r.id = mid →
      (deleteMemory s mid).1 = true ∧
      deleteMemory (deleteMemory s mid).2 mid =
        (false, (deleteMemory s mid).2)) := by
  constructor
  · exact delete_absent_core
  · intro r hr hid
    constructor
    · unfold deleteMemory
      rw [List.any_eq_true]
      exact ⟨r, hr, by simpa using hid⟩
    · apply delete_absent_core
      intro r' hr'
      have : r' ∈ s.rows.filter (fun x => x.id != mid) := hr'
      have h2 := (List.mem_filter.mp this).2
      simpa using h2

theorem C7_witness :
    (((∀ r ∈ store1.rows, r.id ≠ 9) → deleteMemory store1 9 = (false, store1)) ∧
     (∀ r ∈ store1.rows, r.id = 9 →
       (deleteMemory store1 9).1 = true ∧
       deleteMemory (deleteMemory store1 9).2 9 =
         (false, (deleteMemory store1 9).2))) ∧
    deleteMemory store1 9 = (false, store1) ∧
    (deleteMemory store1 2).1 = true ∧
    deleteMemory (deleteMemory store1 2).2 2 = (false, (deleteMemory store1 2).2) :=
  ⟨C7_delete_idempotent_absence store1 9,
   (C7_delete_idempotent_absence store1 9).1 (by decide),
   (C7_delete_idempotent_absence store1 2).2 row2 (by decide) rfl⟩

/-- C8: neither branch of `update_memory`'s `UPDATE` statement writes the
`timestamp` column, so every row after any update call — including one
that supplies new content — keeps the creation time of the row it came
from. -/
theorem C8_update_preserves_created_at (embed : String → List ℚ) (s : Store)
    (mid : Nat) (content : Option String) (tags : Option (List String))
    (category : Option String) :
    ∀ r' ∈ (updateMemory embed s mid content tags category).2.rows,
      ∃ r ∈ s.rows, r'.id = r.id ∧ r'.timestamp = r.timestamp := by
  intro r' hr'
  unfold updateMemory at hr'
  cases hget : getMemory s mid with
  | none =>
    rw [hget] at hr'
    exact ⟨r', hr', rfl, rfl⟩
  | some mem =>
    rw [hget] at hr'
    rcases List.mem_map.mp hr' with ⟨a, ha, heq⟩
    refine ⟨a, ha, ?_⟩
    by_cases hca : a.id = mid
    · rw [if_pos hca] at heq
      rw [← heq, updRow_id, updRow_timestamp]
      exact ⟨rfl, rfl⟩
    · rw [if_neg hca] at heq
      rw [← heq]
      exact ⟨rfl, rfl⟩

theorem C8_witness :
    ∃ r ∈ store1.rows,
      ({ row1 with text := "new", embedding := embed0 "new" } : Row).id = r.id ∧
      ({ row1 with text := "new", embedding := embed0 "new" } : Row).timestamp =
        r.timestamp :=
  C8_update_preserves_created_at embed0 store1 1 (some "new") none none
    { row1 with text := "new", embedding := embed0 "new" } (by decide)

/-- C6: `update_memory` on an absent id returns `False` and leaves the
store untouched; on a present id it returns `True` and one stored row
carries every requested (truthy) change at once — tags, category, and,
when the content is supplied and its embedding is a non-empty vector,
content and embedding together. -/
theorem C6_update_notfound_and_atomic (embed : String → List ℚ) (s : Store)
    (mid : Nat) (content : Option String) (tags : Option (List String))
    (category : Option String) (hWF : WF s) :
    ((∀ r ∈ s.rows, r.id ≠ mid) →
      updateMemory embed s mid content tags category = (false, s)) ∧
    (∀ row ∈ s.rows, row.id = mid →
      (updateMemory embed s mid content tags category).1 = true ∧
      ∃ row' ∈ (updateMemory embed s mid content tags category).2.rows,
        row'.id = mid ∧
        (∀ t, truthyList tags = some t → row'.metadata.tags = t) ∧
        (∀ c, truthyStr category = some c → row'.metadata.category = c) ∧
        (∀ c, truthyStr content = some c → embed c ≠ [] →
          row'.text = c ∧ row'.embedding = embed c)) := by
  constructor
  · intro habs
    unfold updateMemory
    have hget : getMemory s mid = none := by
      unfold getMemory
      rw [Option.map_eq_none', List.find?_eq_none]
      intro r hr
      simpa using habs r hr
    rw [hget]
  · intro row hmem hid
    rw [updateMemory_present content tags category hWF.2 hmem hid]
    refine ⟨rfl, ?_⟩
    refine ⟨updRow embed { id := row.id, content := row.text, metadata := row.metadata }
      content tags category row, ?_, ?_, ?_, ?_, ?_⟩
    · have hrow : (if row.id = mid then
          updRow embed { id := row.id, content := row.text, metadata := row.metadata }
            content tags category row
        else row) =
          updRow embed { id := row.id, content := row.text, metadata := row.metadata }
            content tags category row := if_pos hid
      exact hrow ▸ List.mem_map_of_mem _ hmem
    · rw [updRow_id]; exact hid
    · intro t ht
      rw [updRow_metadata, newMetadata_tags, ht]
      rfl
    · intro c hcat
      rw [updRow_metadata, newMetadata_category, hcat]
      rfl
    · intro c hcon hec
      unfold updRow
      rw [hcon]
      simp only [Option.map_some', Option.getD_some]
      rw [if_neg hec]
      exact ⟨rfl, rfl⟩

theorem C6_witness :
    (((∀ r ∈ store1.rows, r.id ≠ 9) →
       updateMemory embed0 store1 9 (some "new") (some ["x"]) (some "Tech") =
         (false, store1)) ∧
     (∀ row ∈ store1.rows, row.id = 9 →
       (updateMemory embed0 store1 9 (some "new") (some ["x"]) (some "Tech")).1
         = true ∧
       ∃ row' ∈ (updateMemory embed0 store1 9 (some "new") (some ["x"])
           (some "Tech")).2.rows,
         row'.id = 9 ∧
         (∀ t, truthyList (some ["x"]) = some t → row'.metadata.tags = t) ∧
         (∀ c, truthyStr (some "Tech") = some c → row'.metadata.category = c) ∧
         (∀ c, truthyStr (some "new") = some c → embed0 c ≠ [] →
           row'.text = c ∧ row'.embedding = embed0 c))) ∧
    updateMemory embed0 store1 9 (some "new") (some ["x"]) (some "Tech") =
      (false, store1) :=
  ⟨C6_update_notfound_and_atomic embed0 store1 9 (some "new") (some ["x"])
     (some "Tech") (by decide),
   (C6_update_notfound_and_atomic embed0 store1 9 (some "new") (some ["x"])
     (some "Tech") (by decide)).1 (by decide)⟩

theorem truthyList_getD_eq (o : Option (List String)) :
    (truthyList o).getD [] = o.getD [] := by
  cases o with
  | none => rfl
  | some l =>
    unfold truthyList
    by_cases h : l = [] <;> simp [h]

/-- C1 as stated fails on the code: `add_memory` runs the supplied
`category` through Python truthiness (`category or 'Uncategorized'`), so
the valid input `category = ""` is stored as `"Uncategorized"`, not as
the input. -/
theorem C1_counterexample :
    (getMemory (addMemory (fun _ => [1]) "all-MiniLM-L6-v2" "202401010000"
        { rows := [], next := 1 } "hello" (some ["t"]) (some "") none).2
      (addMemory (fun _ => [1]) "all-MiniLM-L6-v2" "202401010000"
        { rows := [], next := 1 } "hello" (some ["t"]) (some "") none).1).map
      (fun m => m.metadata.category) = some "Uncategorized" ∧
    "Uncategorized" ≠ "" := by
  constructor
  · rfl
  · decide

/-- C1 (amended): whenever the supplied `category` is not the empty
string — an empty supplied category is treated exactly like an omitted
one — `get_memory` after `add_memory` returns the inserted record with
`content`, `tags` and `category` equal to the inputs, with the documented
defaults (`[]`, `"Uncategorized"`) for omitted fields. -/
theorem C1_roundtrip_amended (embed : String → List ℚ) (modelName now : String)
    (s : Store) (hWF : WF s) (content : String) (tags : Option (List String))
    (category : Option String) (hcat : category ≠ some "") :
    getMemory (addMemory embed modelName now s content tags category none).2
        (addMemory embed modelName now s content tags category none).1 =
      some { id := s.next
             content := content
             metadata := { tags := tags.getD []
                           category := category.getD "Uncategorized"
                           timestamp := now } } := by
  unfold addMemory getMemory
  rw [find?_append_of_forall_false (fun r hr => by
    have hlt := hWF.1 r hr
    simp [Nat.ne_of_lt hlt])]
  rw [List.find?_cons_of_pos _ (by simp)]
  have hcg : (truthyStr category).getD "Uncategorized" = category.getD "Uncategorized" := by
    cases category with
    | none => rfl
    | some c =>
      have hc : ¬ c = "" := fun he => hcat (by rw [he])
      rw [truthyStr_of_ne hc]
  rw [Option.map_some']
  simp only [truthyList_getD_eq, hcg]
  rfl

theorem C1_witness :
    getMemory (addMemory embed0 "all-MiniLM-L6-v2" "202401010000" store1
        "I like R&B music" (some ["music"]) (some "Entertainment") none).2
      (addMemory embed0 "all-MiniLM-L6-v2" "202401010000" store1
        "I like R&B music" (some ["music"]) (some "Entertainment") none).1 =
      some { id := store1.next
             content := "I like R&B music"
             metadata := { tags := (some ["music"]).getD []
                           category := (some "Entertainment").getD "Uncategorized"
                           timestamp := "202401010000" } } :=
  C1_roundtrip_amended embed0 "all-MiniLM-L6-v2" "202401010000" store1 (by decide)
    "I like R&B music" (some ["music"]) (some "Entertainment") (by decide)

/-- C3: `search_memories(query, k)` returns `min k n` results for a
corpus of `n` rows (so the empty store yields the empty list), sorted in
non-increasing similarity, and each result decodes a stored row with
`similarity = 1 - dist(query embedding, row embedding)`. -/
theorem C3_search_ordering (dist : List ℚ → List ℚ → ℚ)
    (embed : String → List ℚ) (s : Store) (query : String) (k : Nat)
    (hk : 1 ≤ k) :
    (searchMemories dist embed s query k).length = min k s.rows.length ∧
    (searchMemories dist embed s query k).Pairwise
      (fun a b => b.similarity ≤ a.similarity) ∧
    (∀ x ∈ searchMemories dist embed s query k, ∃ r ∈ s.rows,
      x.id = r.id ∧ x.content = r.text ∧ x.metadata = r.metadata ∧
      x.similarity = 1 - dist (embed query) r.embedding) ∧
    (s.rows = [] → searchMemories dist embed s query k = []) := by
  letI : IsTotal Row
      (fun a b => dist (embed query) a.embedding ≤ dist (embed query) b.embedding) :=
    ⟨fun a b => le_total _ _⟩
  letI : IsTrans Row
      (fun a b => dist (embed query) a.embedding ≤ dist (embed query) b.embedding) :=
    ⟨fun a b c hab hbc => le_trans hab hbc⟩
  refine ⟨?_, ?_, ?_, ?_⟩
  · unfold searchMemories
    rw [List.length_map, List.length_take, List.length_insertionSort]
  · unfold searchMemories
    have hs := List.sorted_insertionSort
      (fun a b => dist (embed query) a.embedding ≤ dist (embed query) b.embedding)
      s.rows
    have ht := List.Pairwise.sublist (List.take_sublist k _) hs
    exact List.Pairwise.map _ (fun a b hab => sub_le_sub_left hab 1) ht
  · intro x hx
    unfold searchMemories at hx
    rcases List.mem_map.mp hx with ⟨r, hr, heq⟩
    have hr3 : r ∈ s.rows := by simpa using List.mem_of_mem_take hr
    exact ⟨r, hr3, by rw [← heq], by rw [← heq], by rw [← heq], by rw [← heq]⟩
  · intro h
    unfold searchMemories
    rw [h]
    simp

theorem C3_witness :
    1 ≤ 1 ∧
    ((searchMemories dist0 embed0 store1 "query1" 1).length =
      min 1 store1.rows.length ∧
     (searchMemories dist0 embed0 store1 "query1" 1).Pairwise
       (fun a b => b.similarity ≤ a.similarity) ∧
     (∀ x ∈ searchMemories dist0 embed0 store1 "query1" 1, ∃ r ∈ store1.rows,
       x.id = r.id ∧ x.content = r.text ∧ x.metadata = r.metadata ∧
       x.similarity = 1 - dist0 (embed0 "query1") r.embedding) ∧
     (store1.rows = [] → searchMemories dist0 embed0 store1 "query1" 1 = [])) :=
  ⟨by decide, C3_search_ordering dist0 embed0 store1 "query1" 1 (by decide)⟩
